import Mathlib

/-!
# Verification of the apyate unmasker (`src/apyate.py`)

Shallow embedding of `ApateDecryptor` from `src/apyate.py`.

A file's on-disk content is modelled as a `List Nat` of byte values
(each byte a natural below 256; the arithmetic never depends on the
bound except where stated).  The stateful `reveal_file` method, which
mutates the file in place and returns a `bool`, is modelled as a pure
function returning the outcome together with the final file content:
every `return False` branch of the Python code leaves the file content
untouched, which the model renders by returning the input list
unchanged, and the error constructor names the branch (identified by
the printed message), following the spec's error taxonomy.

The path helper `remove_mp4_extension` relies on `pathlib.PurePosixPath`
(`suffix`, `stem`, `parent`, `/`, `str`); those standard-library
operations are modelled on `List Char` following CPython's `pathlib`
semantics: a path string parses into an optional root (`""`, `"/"` or
`"//"`) plus the list of its non-empty, non-`"."` components; `str`
joins them back with `"/"`.
-/

/-- Constant `self.mask_length_indicator_length = 4` (`apyate.py`, line 9). -/
def mask_length_indicator_length : Nat := 4

/-- Model of `bytes_to_int`: `struct.unpack('<I', byte_data)[0]` — the
little-endian unsigned interpretation of a byte list (`apyate.py`,
lines 11-13). -/
def bytes_to_int (byte_data : List Nat) : Nat :=
  byte_data.foldr (fun b acc => b + 256 * acc) 0

/-- Model of `reverse_byte_array`: `bytes(reversed(buffer))`
(`apyate.py`, lines 15-17). -/
def reverse_byte_array (buffer : List Nat) : List Nat :=
  buffer.reverse

/-- One constructor per `return False` branch of `reveal_file`
(identified by its printed message), named after the spec's §7 error
taxonomy.  `FileNotFound` is the `if not file_path_obj.exists()` branch. -/
inductive RevealError where
  | FileNotFound
  | TooSmall
  | TrailerReadError
  | InvalidMaskLength
  | InvalidHeaderOffset
  | HeaderReadError
  deriving DecidableEq, Repr

/-- Model of `original_head_position = file_size -
self.mask_length_indicator_length - mask_head_length` (`apyate.py`,
line 61), over the integers as in Python. -/
def original_head_position (file_size mask_head_length : Nat) : Int :=
  (file_size : Int) - (mask_length_indicator_length : Int) - (mask_head_length : Int)

/-- Model of `reveal_file` (`apyate.py`, lines 19-89) on an existing file
whose content is `file`.  Mirrors the Python line by line:
* `file_size <= 4` → the "file too small" branch (`TooSmall`);
* the trailer is the last 4 bytes (`f.seek(-4, 2); f.read(4)`), modelled
  as `file.drop (file_size - 4)`; a short read → `TrailerReadError`;
* `mask_head_length <= 0 or mask_head_length >= file_size - 4` →
  `InvalidMaskLength` (the unpacked value is unsigned, so `<= 0` is `= 0`);
* `original_head_position < 0 or original_head_position >= file_size` →
  `InvalidHeaderOffset`;
* the header read `f.seek(pos); f.read(mask_head_length)` is
  `(file.drop pos).take mask_head_length`; a short read → `HeaderReadError`;
* `f.seek(0); f.write(reverse_byte_array(original_head))` overwrites the
  first `len(reversed head)` bytes in place, then `f.truncate(new_file_size)`
  keeps the first `new_file_size` bytes. -/
def reveal_file (file : List Nat) : Except RevealError Unit × List Nat :=
  let file_size := file.length
  if file_size ≤ mask_length_indicator_length then
    (Except.error RevealError.TooSmall, file)
  else
    let mask_length_bytes := file.drop (file_size - mask_length_indicator_length)
    if mask_length_bytes.length ≠ mask_length_indicator_length then
      (Except.error RevealError.TrailerReadError, file)
    else
      let mask_head_length := bytes_to_int mask_length_bytes
      if mask_head_length = 0 ∨ file_size - mask_length_indicator_length ≤ mask_head_length then
        (Except.error RevealError.InvalidMaskLength, file)
      else
        let pos := original_head_position file_size mask_head_length
        if pos < 0 ∨ (file_size : Int) ≤ pos then
          (Except.error RevealError.InvalidHeaderOffset, file)
        else
          let original_head := (file.drop pos.toNat).take mask_head_length
          if original_head.length ≠ mask_head_length then
            (Except.error RevealError.HeaderReadError, file)
          else
            let new_file_size := file_size - mask_head_length - mask_length_indicator_length
            let written := reverse_byte_array original_head ++
              file.drop (reverse_byte_array original_head).length
            (Except.ok (), written.take new_file_size)

/-- Model of `reveal_file` including the existence check (`apyate.py`,
lines 31-33): the file-system state at the given path is `some content`,
or `none` when no file exists there.  A missing file is reported as a
failure (printed message, `return False`) before any handle is opened,
so no exception escapes and the state is left exactly as it was. -/
def reveal_file_fs (fs : Option (List Nat)) : Except RevealError Unit × Option (List Nat) :=
  match fs with
  | none => (Except.error RevealError.FileNotFound, none)
  | some file => ((reveal_file file).1, some (reveal_file file).2)

/-- Little-endian 4-byte encoding of a length, as used by the masking
scheme's trailer (spec §3: "4 bytes, little-endian unsigned"). -/
def littleEndian32 (n : Nat) : List Nat :=
  [n % 256, n / 256 % 256, n / 65536 % 256, n / 16777216 % 256]

/-- Split a character list at every `'/'`, keeping empty segments, like
Python's `str.split('/')` which underlies `PurePosixPath` parsing. -/
def splitSlash : List Char → List (List Char)
  | [] => [[]]
  | c :: rest =>
    if c = '/' then [] :: splitSlash rest
    else
      match splitSlash rest with
      | [] => [[c]]
      | seg :: segs => (c :: seg) :: segs

/-- Root of a POSIX path as computed by `pathlib`: `"/"` for one leading
slash or three and more, `"//"` for exactly two, empty otherwise. -/
def pyRoot (p : List Char) : List Char :=
  match p with
  | [] => []
  | c :: rest =>
    if c = '/' then
      match rest with
      | [] => ['/']
      | c2 :: rest2 =>
        if c2 = '/' then
          match rest2 with
          | [] => ['/', '/']
          | c3 :: _ => if c3 = '/' then ['/'] else ['/', '/']
        else ['/']
    else []

/-- Relative components of a POSIX path as computed by `pathlib`: the
slash-separated segments with empty and `"."` segments dropped. -/
def pyParts (p : List Char) : List (List Char) :=
  (splitSlash p).filter (fun seg => seg != [] && seg != ['.'])

/-- Model of `PurePosixPath(p).name`: the last component, or empty for a
bare root or the empty path. -/
def pyName (p : List Char) : List Char :=
  (pyParts p).getLast?.getD []

/-- Index of the last `'.'` in a character list, like Python's
`str.rfind('.')` (with `none` for Python's `-1`), as used by
`pathlib`'s `suffix` and `stem`. -/
def rfindDot : List Char → Option Nat
  | [] => none
  | c :: rest =>
    match rfindDot rest with
    | some i => some (i + 1)
    | none => if c = '.' then some 0 else none

/-- Model of `PurePosixPath.suffix` on a final component `name`: the part
of `name` from its last dot on, provided that dot is neither the first
nor the last character; empty otherwise. -/
def py_suffix (name : List Char) : List Char :=
  match rfindDot name with
  | none => []
  | some i => if 0 < i ∧ i < name.length - 1 then name.drop i else []

/-- Model of `PurePosixPath.stem` on a final component `name`: `name`
without its suffix (the whole of `name` when there is no suffix). -/
def py_stem (name : List Char) : List Char :=
  match rfindDot name with
  | none => name
  | some i => if 0 < i ∧ i < name.length - 1 then name.take i else name

/-- Join path components with `'/'`, like Python's `'/'.join`. -/
def joinSlash : List (List Char) → List Char
  | [] => []
  | [a] => a
  | a :: rest => a ++ '/' :: joinSlash rest

/-- Model of `str(PurePosixPath(...))` from a root and components:
root followed by the slash-joined components, and `"."` for the empty
relative path. -/
def strOfParts (root : List Char) (parts : List (List Char)) : List Char :=
  if root = [] ∧ parts = [] then ['.']
  else root ++ joinSlash parts

/-- The disguise suffix `".mp4"` the helper strips (lower-case form). -/
def mp4Suffix : List Char := ['.', 'm', 'p', '4']

/-- Model of `remove_mp4_extension` (`apyate.py`, lines 91-110):
if `Path(file_path).suffix.lower() == '.mp4'` then
`str(path_obj.parent / path_obj.stem)` — the parent's components with
the stem re-joined (joining re-parses the stem, so an empty or `"."`
stem is dropped, as `PurePath.__truediv__` does) — else the input
unchanged.  A pure string computation: the model (like the source
function) touches no file-system state. -/
def remove_mp4_extension (file_path : List Char) : List Char :=
  if (py_suffix (pyName file_path)).map Char.toLower = mp4Suffix then
    let new_name := py_stem (pyName file_path)
    strOfParts (pyRoot file_path)
      ((pyParts file_path).dropLast ++
        (if new_name = [] ∨ new_name = ['.'] then [] else [new_name]))
  else file_path

/-! ## Helper lemmas -/

theorem bytes_to_int_littleEndian32 (n : Nat) :
    bytes_to_int (littleEndian32 n) = n % 4294967296 := by
  simp only [littleEndian32, bytes_to_int, List.foldr]
  omega

/-- Evaluation of `reveal_file` on the success path: when the file is
large enough and the decoded trailer `m` passes validation, the result
is the reversed disguised header written over the first `m` bytes,
truncated to `file.length - m - 4`. -/
theorem reveal_file_ok (file : List Nat) (m : Nat)
    (hmdef : bytes_to_int (file.drop (file.length - 4)) = m)
    (h0 : 0 < m) (hm : m < file.length - 4) :
    reveal_file file =
      (Except.ok (),
        (((file.drop (file.length - 4 - m)).take m).reverse ++ file.drop m).take
          (file.length - m - 4)) := by
  have h4 : 4 < file.length := by omega
  have hdlen : (file.drop (file.length - 4)).length = 4 := by
    simp [List.length_drop]; omega
  have hposN : (original_head_position file.length m).toNat = file.length - 4 - m := by
    simp only [original_head_position, mask_length_indicator_length]
    omega
  have hheadlen : ((file.drop (file.length - 4 - m)).take m).length = m := by
    simp [List.length_take, List.length_drop]; omega
  unfold reveal_file
  simp only [mask_length_indicator_length]
  rw [if_neg (by omega : ¬ file.length ≤ 4)]
  rw [if_neg (by rw [hdlen]; simp : ¬ (file.drop (file.length - 4)).length ≠ 4)]
  rw [hmdef]
  rw [if_neg (by omega : ¬ (m = 0 ∨ file.length - 4 ≤ m))]
  rw [if_neg (by simp only [original_head_position, mask_length_indicator_length]; omega :
    ¬ (original_head_position file.length m < 0 ∨
      (file.length : Int) ≤ original_head_position file.length m))]
  rw [hposN]
  rw [if_neg (by rw [hheadlen]; simp : ¬ ((file.drop (file.length - 4 - m)).take m).length ≠ m)]
  simp only [reverse_byte_array, List.length_reverse, hheadlen]

theorem splitSlash_no_slash : ∀ (a : List Char), '/' ∉ a → splitSlash a = [a]
  | [], _ => rfl
  | c :: rest, h => by
    have hc : ¬ c = '/' := fun hh => h (hh ▸ List.mem_cons_self c rest)
    have hr := splitSlash_no_slash rest (fun hm => h (List.mem_cons_of_mem _ hm))
    simp [splitSlash, hc, hr]

theorem splitSlash_append : ∀ (a t : List Char), '/' ∉ a →
    splitSlash (a ++ '/' :: t) = a :: splitSlash t
  | [], t, _ => by simp [splitSlash]
  | c :: a', t, h => by
    have hc : ¬ c = '/' := fun hh => h (hh ▸ List.mem_cons_self c a')
    have hr := splitSlash_append a' t (fun hm => h (List.mem_cons_of_mem _ hm))
    simp [splitSlash, hc, hr]

theorem splitSlash_joinSlash : ∀ (ps : List (List Char)),
    (∀ p ∈ ps, '/' ∉ p) → ps ≠ [] → splitSlash (joinSlash ps) = ps
  | [], _, hne => absurd rfl hne
  | [a], h, _ => by
    simp only [joinSlash]
    exact splitSlash_no_slash a (h a (List.mem_singleton_self a))
  | a :: b :: rest, h, _ => by
    have ha : '/' ∉ a := h a (List.mem_cons_self _ _)
    have hr := splitSlash_joinSlash (b :: rest)
      (fun p hp => h p (List.mem_cons_of_mem _ hp)) (by simp)
    show splitSlash (a ++ '/' :: joinSlash (b :: rest)) = a :: b :: rest
    rw [splitSlash_append a _ ha, hr]

/-- Parsing inverts printing, component part: printing a root and valid
components and re-parsing recovers exactly the components. -/
theorem pyParts_strOfParts (root : List Char) (ps : List (List Char))
    (hroot : root = [] ∨ root = ['/'] ∨ root = ['/', '/'])
    (hps : ∀ p ∈ ps, p ≠ [] ∧ p ≠ ['.'] ∧ '/' ∉ p)
    (hne : ps ≠ []) :
    pyParts (strOfParts root ps) = ps := by
  have hsplit : splitSlash (joinSlash ps) = ps :=
    splitSlash_joinSlash ps (fun p hp => (hps p hp).2.2) hne
  have hfilter : ps.filter (fun seg => seg != [] && seg != ['.']) = ps := by
    rw [List.filter_eq_self]
    intro p hp
    simp [List.filter, (hps p hp).1, (hps p hp).2.1]
  have hstr : strOfParts root ps = root ++ joinSlash ps := by
    simp [strOfParts, hne]
  rcases hroot with h | h | h <;> subst h
  · simp only [hstr, List.nil_append, pyParts, hsplit, hfilter]
  · show pyParts ('/' :: joinSlash ps) = ps
    simp only [pyParts, splitSlash, if_pos rfl, hsplit]
    simpa using hfilter
  · show pyParts ('/' :: '/' :: joinSlash ps) = ps
    simp only [pyParts, splitSlash, if_pos rfl, hsplit]
    simpa using hfilter

theorem joinSlash_head : ∀ (ps : List (List Char)),
    (∀ p ∈ ps, p ≠ [] ∧ '/' ∉ p) → ps ≠ [] →
    ∃ c y, joinSlash ps = c :: y ∧ c ≠ '/'
  | [], _, hne => absurd rfl hne
  | [a], h, _ => by
    obtain ⟨hne, hsl⟩ := h a (List.mem_singleton_self a)
    obtain ⟨c, a', rfl⟩ := List.exists_cons_of_ne_nil hne
    exact ⟨c, a', rfl, fun hh => hsl (hh ▸ List.mem_cons_self c a')⟩
  | a :: b :: rest, h, _ => by
    obtain ⟨hne, hsl⟩ := h a (List.mem_cons_self _ _)
    obtain ⟨c, a', rfl⟩ := List.exists_cons_of_ne_nil hne
    exact ⟨c, a' ++ '/' :: joinSlash (b :: rest), rfl,
      fun hh => hsl (hh ▸ List.mem_cons_self c a')⟩

/-- Parsing inverts printing, root part. -/
theorem pyRoot_strOfParts (root : List Char) (ps : List (List Char))
    (hroot : root = [] ∨ root = ['/'] ∨ root = ['/', '/'])
    (hps : ∀ p ∈ ps, p ≠ [] ∧ p ≠ ['.'] ∧ '/' ∉ p)
    (hne : ps ≠ []) :
    pyRoot (strOfParts root ps) = root := by
  obtain ⟨c, y, hj, hc⟩ := joinSlash_head ps
    (fun p hp => ⟨(hps p hp).1, (hps p hp).2.2⟩) hne
  have hstr : strOfParts root ps = root ++ joinSlash ps := by
    simp [strOfParts, hne]
  rcases hroot with h | h | h <;> subst h <;>
    simp [hstr, hj, pyRoot, hc]

theorem rfindDot_of_not_mem : ∀ (l : List Char), '.' ∉ l → rfindDot l = none
  | [], _ => rfl
  | c :: rest, h => by
    have hc : ¬ c = '.' := fun hh => h (hh ▸ List.mem_cons_self c rest)
    have hr := rfindDot_of_not_mem rest (fun hm => h (List.mem_cons_of_mem _ hm))
    simp [rfindDot, hr, hc]

theorem rfindDot_append_dot : ∀ (stem sfx : List Char), '.' ∉ sfx →
    rfindDot (stem ++ '.' :: sfx) = some stem.length
  | [], sfx, h => by simp [rfindDot, rfindDot_of_not_mem sfx h]
  | c :: stem', sfx, h => by
    have hr := rfindDot_append_dot stem' sfx h
    simp [rfindDot, hr]

theorem py_suffix_append_dot (stem sfx : List Char)
    (hstem : stem ≠ []) (hsfx : sfx ≠ []) (hdot : '.' ∉ sfx) :
    py_suffix (stem ++ '.' :: sfx) = '.' :: sfx := by
  simp only [py_suffix, rfindDot_append_dot stem sfx hdot]
  rw [if_pos ⟨List.length_pos.mpr hstem, by
    simp only [List.length_append, List.length_cons]
    have := List.length_pos.mpr hsfx
    omega⟩]
  exact List.drop_left stem ('.' :: sfx)

theorem py_stem_append_dot (stem sfx : List Char)
    (hstem : stem ≠ []) (hsfx : sfx ≠ []) (hdot : '.' ∉ sfx) :
    py_stem (stem ++ '.' :: sfx) = stem := by
  simp only [py_stem, rfindDot_append_dot stem sfx hdot]
  rw [if_pos ⟨List.length_pos.mpr hstem, by
    simp only [List.length_append, List.length_cons]
    have := List.length_pos.mpr hsfx
    omega⟩]
  exact List.take_left stem ('.' :: sfx)

/-! ## Claims -/

/-- C1, counterexample.  The claim instantiated at `orig = [1]` (so
`L = 1`, within the claimed bound `0 < L < 2^32 - 4`) and the empty
`tail`: the masked file built as `tail ++ reverse orig ++ littleEndian32 L`
is `[1, 1, 0, 0, 0]`, on which `reveal_file` does NOT leave
`orig ++ tail = [1]` — the decoded mask length `1` equals
`fileSize - 4`, so validation rejects the file and it is left unchanged
as `[1, 1, 0, 0, 0]`. -/
theorem reveal_round_trip_counterexample :
    (reveal_file (([] : List Nat) ++ ([1] : List Nat).reverse ++ littleEndian32 1)).2 ≠
      [1] ++ ([] : List Nat) := by
  decide

/-- C1, amended.  The layout `tail ++ reverse(orig) ++ littleEndian32 L`
misses the `L`-byte disguise region that the masking wrote over the
original header (spec §3: the content region has length
`fileSize - maskLength - 4`, which is `len(tail) + L`, not `len(tail)`).
Round trip as the code implements it: for every `orig` of length `L`
with `0 < L < 2^32 - 4`, every `tail`, and every `L`-byte disguise
region `mask`, unmasking `mask ++ tail ++ reverse(orig) ++
littleEndian32 L` succeeds and leaves exactly `orig ++ tail`, of size
`len(orig) + len(tail)`. -/
theorem reveal_round_trip (orig tail mask : List Nat)
    (h0 : 0 < orig.length) (hL : orig.length < 2 ^ 32 - 4)
    (hmask : mask.length = orig.length) :
    reveal_file (mask ++ tail ++ orig.reverse ++ littleEndian32 orig.length) =
      (Except.ok (), orig ++ tail) ∧
    (orig ++ tail).length = orig.length + tail.length := by
  set L := orig.length with hLdef
  set file := mask ++ tail ++ orig.reverse ++ littleEndian32 L with hfile
  have hlen : file.length = L + tail.length + L + 4 := by
    simp [hfile, littleEndian32]
    omega
  have htrailer : file.drop (file.length - 4) = littleEndian32 L := by
    rw [hfile, hlen]
    rw [show mask ++ tail ++ orig.reverse ++ littleEndian32 L
        = (mask ++ tail ++ orig.reverse) ++ littleEndian32 L by simp]
    rw [show L + tail.length + L + 4 - 4 = (mask ++ tail ++ orig.reverse).length by
      simp [hmask]; omega]
    exact List.drop_left _ _
  have hmdef : bytes_to_int (file.drop (file.length - 4)) = L := by
    rw [htrailer, bytes_to_int_littleEndian32]
    omega
  have hok := reveal_file_ok file L hmdef h0 (by omega)
  rw [hok]
  have hdrop1 : file.drop (file.length - 4 - L) = orig.reverse ++ littleEndian32 L := by
    rw [hfile, hlen]
    rw [show mask ++ tail ++ orig.reverse ++ littleEndian32 L
        = (mask ++ tail) ++ (orig.reverse ++ littleEndian32 L) by simp]
    rw [show L + tail.length + L + 4 - 4 - L = (mask ++ tail).length by
      simp [hmask]]
    exact List.drop_left _ _
  have htake1 : (orig.reverse ++ littleEndian32 L).take L = orig.reverse := by
    rw [show L = orig.reverse.length by simp]
    exact List.take_left _ _
  have hdrop2 : file.drop L = tail ++ orig.reverse ++ littleEndian32 L := by
    rw [hfile]
    rw [show mask ++ tail ++ orig.reverse ++ littleEndian32 L
        = mask ++ (tail ++ orig.reverse ++ littleEndian32 L) by simp]
    rw [show L = mask.length from hmask.symm]
    exact List.drop_left _ _
  rw [hdrop1, htake1, hdrop2, List.reverse_reverse]
  constructor
  · congr 1
    rw [show file.length - L - 4 = L + tail.length by omega]
    rw [show orig ++ (tail ++ orig.reverse ++ littleEndian32 L)
        = (orig ++ tail) ++ (orig.reverse ++ littleEndian32 L) by simp]
    rw [show L + tail.length = (orig ++ tail).length by simp]
    exact List.take_left _ _
  · simp

/-- C1, witness for the amended round trip: `orig = [1, 2, 3]`,
`tail = [9]`, disguise region `[7, 7, 7]`. -/
theorem reveal_round_trip_witness :
    (0 < ([1, 2, 3] : List Nat).length ∧
      ([1, 2, 3] : List Nat).length < 2 ^ 32 - 4 ∧
      ([7, 7, 7] : List Nat).length = ([1, 2, 3] : List Nat).length) ∧
    reveal_file ([7, 7, 7] ++ [9] ++ ([1, 2, 3] : List Nat).reverse ++
        littleEndian32 ([1, 2, 3] : List Nat).length) =
      (Except.ok (), [1, 2, 3] ++ [9]) ∧
    (([1, 2, 3] : List Nat) ++ [9]).length =
      ([1, 2, 3] : List Nat).length + ([9] : List Nat).length :=
  ⟨⟨by decide, by decide, by decide⟩,
    reveal_round_trip [1, 2, 3] [9] [7, 7, 7] (by decide) (by decide) (by decide)⟩

/-- C2, counterexample.  On the 9-byte file
`99 99 03 02 01 03 00 00 00` (decimal `[153, 153, 3, 2, 1, 3, 0, 0, 0]`)
`reveal_file` does NOT leave the claimed 5 bytes `99 99 01 02 03`: the
code writes the reversed header `01 02 03` at offset 0 (over the tail
bytes) and truncates to `fileSize - maskLength - 4 = 2` bytes, so the
final content is `01 02`. -/
theorem reveal_concrete_scenario_counterexample :
    (reveal_file [153, 153, 3, 2, 1, 3, 0, 0, 0]).2 ≠ [153, 153, 1, 2, 3] := by
  decide

/-- C2, amended.  Running `reveal_file` on the 9-byte file
`99 99 03 02 01 03 00 00 00` succeeds and leaves the file equal to the
2 bytes `01 02`: the reversed header `01 02 03` is written at offset 0
and the file is then truncated to `fileSize - maskLength - 4 = 2`
bytes, so the final size is 2, not 5, and the header comes first, not
after the tail. -/
theorem reveal_concrete_scenario :
    reveal_file [153, 153, 3, 2, 1, 3, 0, 0, 0] = (Except.ok (), [1, 2]) := rfl

/-- C3, counterexample.  The 8-byte file `[10, 20, 30, 40, 3, 0, 0, 0]`
has trailer decoding to `maskLength = 3` with `0 < 3 < 8 - 4`, so the
claim applies; the disguised header is the 3 bytes at offset
`8 - 4 - 3 = 1`, namely `[20, 30, 40]`.  The claim says the first 3
bytes of the result equal its reversal `[40, 30, 20]`, but the result is
truncated to `8 - 3 - 4 = 1` byte (`[40]`), so its first 3 bytes are
`[40]` ≠ `[40, 30, 20]`. -/
theorem reveal_success_postcondition_counterexample :
    ((reveal_file [10, 20, 30, 40, 3, 0, 0, 0]).2).take 3 ≠
      ((([10, 20, 30, 40, 3, 0, 0, 0] : List Nat).drop 1).take 3).reverse := by
  decide

/-- C3, amended.  The claim holds once the header does not out-run the
truncated length, i.e. under the additional hypothesis
`2 * maskLength + 4 ≤ fileSize` (equivalently
`maskLength ≤ fileSize - maskLength - 4`), which every properly masked
file satisfies: `reveal_file` succeeds, the result has length
`fileSize - maskLength - 4`, its first `maskLength` bytes are the
byte-reversal of the disguised header at offset
`fileSize - 4 - maskLength`, and every byte at an offset in
`[maskLength, fileSize - maskLength - 4)` is unchanged. -/
theorem reveal_success_postcondition (file : List Nat) (m : Nat)
    (hmdef : bytes_to_int (file.drop (file.length - 4)) = m)
    (h0 : 0 < m) (hm : m < file.length - 4)
    (hno : 2 * m + 4 ≤ file.length) :
    (reveal_file file).1 = Except.ok () ∧
    (reveal_file file).2.length = file.length - m - 4 ∧
    (reveal_file file).2.take m = ((file.drop (file.length - 4 - m)).take m).reverse ∧
    ∀ i, m ≤ i → i < file.length - m - 4 → (reveal_file file).2[i]? = file[i]? := by
  have hok := reveal_file_ok file m hmdef h0 hm
  rw [hok]
  have hrevlen : (((file.drop (file.length - 4 - m)).take m).reverse).length = m := by
    simp [List.length_reverse, List.length_take, List.length_drop]
    omega
  refine ⟨rfl, ?_, ?_, ?_⟩
  · simp only [List.length_take, List.length_append, hrevlen, List.length_drop]
    omega
  · rw [List.take_take]
    rw [show min m (file.length - m - 4) = m by omega]
    rw [List.take_append_of_le_length (by rw [hrevlen])]
    exact List.take_of_length_le (le_of_eq hrevlen)
  · intro i hi1 hi2
    rw [List.getElem?_take_of_lt hi2]
    rw [List.getElem?_append_right (by omega)]
    rw [hrevlen, List.getElem?_drop]
    congr 1
    omega

/-- C3, witness: the 10-byte file `[9, 9, 9, 9, 8, 7, 2, 0, 0, 0]` with
`maskLength = 2`; the result is `[7, 8, 9, 9]`. -/
theorem reveal_success_postcondition_witness :
    (bytes_to_int (([9, 9, 9, 9, 8, 7, 2, 0, 0, 0] : List Nat).drop 6) = 2 ∧
      0 < 2 ∧ 2 < ([9, 9, 9, 9, 8, 7, 2, 0, 0, 0] : List Nat).length - 4 ∧
      2 * 2 + 4 ≤ ([9, 9, 9, 9, 8, 7, 2, 0, 0, 0] : List Nat).length) ∧
    (reveal_file [9, 9, 9, 9, 8, 7, 2, 0, 0, 0]).1 = Except.ok () ∧
    (reveal_file [9, 9, 9, 9, 8, 7, 2, 0, 0, 0]).2.length = 4 ∧
    (reveal_file [9, 9, 9, 9, 8, 7, 2, 0, 0, 0]).2.take 2 =
      ((([9, 9, 9, 9, 8, 7, 2, 0, 0, 0] : List Nat).drop 4).take 2).reverse ∧
    (reveal_file [9, 9, 9, 9, 8, 7, 2, 0, 0, 0]).2[2]? =
      ([9, 9, 9, 9, 8, 7, 2, 0, 0, 0] : List Nat)[2]? :=
  ⟨⟨rfl, by decide, by decide, by decide⟩,
    (reveal_success_postcondition [9, 9, 9, 9, 8, 7, 2, 0, 0, 0] 2 rfl
      (by decide) (by decide) (by decide)).1,
    (reveal_success_postcondition [9, 9, 9, 9, 8, 7, 2, 0, 0, 0] 2 rfl
      (by decide) (by decide) (by decide)).2.1,
    (reveal_success_postcondition [9, 9, 9, 9, 8, 7, 2, 0, 0, 0] 2 rfl
      (by decide) (by decide) (by decide)).2.2.1,
    (reveal_success_postcondition [9, 9, 9, 9, 8, 7, 2, 0, 0, 0] 2 rfl
      (by decide) (by decide) (by decide)).2.2.2 2 (by decide) (by decide)⟩

/-- C4.  For every file of size above 4 whose last 4 bytes decode
(little-endian) to `m` with `m = 0` or `m ≥ fileSize - 4`, `reveal_file`
fails on the `InvalidMaskLength` branch and leaves the file unchanged;
the 5-byte zero-trailer file and the `m = fileSize - 4` boundary are the
instances checked in the witness. -/
theorem reveal_invalid_mask_length (file : List Nat) (m : Nat)
    (hmdef : bytes_to_int (file.drop (file.length - 4)) = m)
    (h4 : 4 < file.length)
    (hbad : m = 0 ∨ file.length - 4 ≤ m) :
    reveal_file file = (Except.error RevealError.InvalidMaskLength, file) := by
  have hdlen : (file.drop (file.length - 4)).length = 4 := by
    simp [List.length_drop]; omega
  unfold reveal_file
  simp only [mask_length_indicator_length]
  rw [if_neg (by omega : ¬ file.length ≤ 4)]
  rw [if_neg (by rw [hdlen]; simp : ¬ (file.drop (file.length - 4)).length ≠ 4)]
  rw [hmdef]
  rw [if_pos hbad]

/-- C4, witness: the 5-byte file `[7, 0, 0, 0, 0]` (trailer decodes to
0) and the 10-byte file `[1, 2, 3, 4, 5, 6, 6, 0, 0, 0]` (trailer
decodes to `fileSize - 4 = 6`) both fail with `InvalidMaskLength`. -/
theorem reveal_invalid_mask_length_witness :
    (bytes_to_int (([7, 0, 0, 0, 0] : List Nat).drop 1) = 0 ∧
      4 < ([7, 0, 0, 0, 0] : List Nat).length ∧
      reveal_file [7, 0, 0, 0, 0] =
        (Except.error RevealError.InvalidMaskLength, [7, 0, 0, 0, 0])) ∧
    (bytes_to_int (([1, 2, 3, 4, 5, 6, 6, 0, 0, 0] : List Nat).drop 6) = 6 ∧
      4 < ([1, 2, 3, 4, 5, 6, 6, 0, 0, 0] : List Nat).length ∧
      reveal_file [1, 2, 3, 4, 5, 6, 6, 0, 0, 0] =
        (Except.error RevealError.InvalidMaskLength, [1, 2, 3, 4, 5, 6, 6, 0, 0, 0])) :=
  ⟨⟨rfl, by decide,
      reveal_invalid_mask_length [7, 0, 0, 0, 0] 0 rfl (by decide) (Or.inl rfl)⟩,
    ⟨rfl, by decide,
      reveal_invalid_mask_length [1, 2, 3, 4, 5, 6, 6, 0, 0, 0] 6 rfl (by decide)
        (Or.inr (by decide))⟩⟩

/-- C5.  Every file of size at most 4 bytes fails on the `TooSmall`
branch before the trailer is read, and the file is unchanged; hence only
files of size strictly above 4 bytes proceed past this check. -/
theorem reveal_too_small (file : List Nat) (h : file.length ≤ 4) :
    reveal_file file = (Except.error RevealError.TooSmall, file) := by
  unfold reveal_file
  simp only [mask_length_indicator_length]
  rw [if_pos h]

/-- C5, witness: the 4-byte file `[1, 2, 3, 4]`. -/
theorem reveal_too_small_witness :
    ([1, 2, 3, 4] : List Nat).length ≤ 4 ∧
    reveal_file [1, 2, 3, 4] = (Except.error RevealError.TooSmall, [1, 2, 3, 4]) :=
  ⟨by decide, reveal_too_small [1, 2, 3, 4] (by decide)⟩

/-- C6.  Non-mutation on rejection: whenever `reveal_file` returns any
validation failure, the file content it leaves behind is exactly the
input content — every failing branch returns before the write and the
truncation. -/
theorem reveal_failure_preserves_file (file : List Nat) (e : RevealError)
    (h : (reveal_file file).1 = Except.error e) :
    (reveal_file file).2 = file := by
  simp only [reveal_file] at h ⊢
  split_ifs at h ⊢ <;> simp_all

/-- C6, witness: the failing 3-byte file `[1, 2, 3]` is left unchanged. -/
theorem reveal_failure_preserves_file_witness :
    (reveal_file [1, 2, 3]).1 = Except.error RevealError.TooSmall ∧
    (reveal_file [1, 2, 3]).2 = [1, 2, 3] :=
  ⟨rfl, reveal_failure_preserves_file [1, 2, 3] RevealError.TooSmall rfl⟩

/-- C7.  Defensive check is unreachable: whenever the step-2 validation
`0 < maskLength < fileSize - 4` has passed, the computed
`original_head_position = fileSize - 4 - maskLength` satisfies
`0 ≤ headerOffset < fileSize`; consequently no run of `reveal_file` on
any file ever returns `InvalidHeaderOffset`. -/
theorem header_offset_check_redundant (file_size m : Nat)
    (h0 : 0 < m) (hm : m < file_size - 4) :
    (0 ≤ original_head_position file_size m ∧
      original_head_position file_size m < (file_size : Int)) ∧
    ∀ file : List Nat, (reveal_file file).1 ≠ Except.error RevealError.InvalidHeaderOffset := by
  constructor
  · simp only [original_head_position, mask_length_indicator_length]
    omega
  · intro file h
    simp only [reveal_file, mask_length_indicator_length] at h
    split_ifs at h with h1 h2 h3 h4 h5 <;> simp_all
    simp only [original_head_position, mask_length_indicator_length] at h4
    have : (file.drop (file.length - 4)).length = 4 := by
      simp [List.length_drop]; omega
    omega

/-- C7, witness: `fileSize = 9`, `maskLength = 3` gives
`headerOffset = 2` within bounds, and the concrete file `[1, 2, 3, 4, 5]`
does not fail with `InvalidHeaderOffset`. -/
theorem header_offset_check_redundant_witness :
    (0 < 3 ∧ 3 < 9 - 4) ∧
    (0 ≤ original_head_position 9 3 ∧
      original_head_position 9 3 < ((9 : Nat) : Int)) ∧
    (reveal_file [1, 2, 3, 4, 5]).1 ≠ Except.error RevealError.InvalidHeaderOffset :=
  ⟨⟨by decide, by decide⟩,
    (header_offset_check_redundant 9 3 (by decide) (by decide)).1,
    (header_offset_check_redundant 9 3 (by decide) (by decide)).2 [1, 2, 3, 4, 5]⟩

/-- C8.  Extension-strip helper, stated for a path given in canonical
POSIX form: a root (empty, `"/"`, or `"//"`), the preceding components
`ps` (each non-empty, not `"."`, slash-free), and a final component
`stem ++ "." ++ sfx` whose suffix lower-cases to `"mp4"` (its three
characters `a b c` satisfy `toLower = 'm', 'p', '4'`) and whose stem is
a proper name (non-empty, not `"."`, slash-free — so re-joining keeps
it, matching `PurePath` join semantics).  Then `remove_mp4_extension`
returns the same path with only the final `".mp4"` suffix removed:
root, all preceding components, and every earlier extension inside
`stem` are preserved.  For every path `q` whose final extension does
not lower-case to `".mp4"`, the input is returned unchanged.  The
operation is a pure function on the path characters: the model, like
the source function, performs no file I/O. -/
theorem remove_mp4_extension_spec
    (root : List Char) (ps : List (List Char)) (stem : List Char) (a b c : Char)
    (q : List Char)
    (hroot : root = [] ∨ root = ['/'] ∨ root = ['/', '/'])
    (hps : ∀ p ∈ ps, p ≠ [] ∧ p ≠ ['.'] ∧ '/' ∉ p)
    (hstem1 : stem ≠ []) (hstem2 : stem ≠ ['.']) (hstem3 : '/' ∉ stem)
    (ha : a.toLower = 'm') (hb : b.toLower = 'p') (hc : c.toLower = '4') :
    remove_mp4_extension (strOfParts root (ps ++ [stem ++ ['.', a, b, c]])) =
      strOfParts root (ps ++ [stem]) ∧
    ((py_suffix (pyName q)).map Char.toLower ≠ mp4Suffix → remove_mp4_extension q = q) := by
  refine ⟨?_, fun h => by simp only [remove_mp4_extension, if_neg h]⟩
  have hadot : a ≠ '.' := fun hh => by subst hh; exact absurd ha (by decide)
  have hbdot : b ≠ '.' := fun hh => by subst hh; exact absurd hb (by decide)
  have hcdot : c ≠ '.' := fun hh => by subst hh; exact absurd hc (by decide)
  have hasl : a ≠ '/' := fun hh => by subst hh; exact absurd ha (by decide)
  have hbsl : b ≠ '/' := fun hh => by subst hh; exact absurd hb (by decide)
  have hcsl : c ≠ '/' := fun hh => by subst hh; exact absurd hc (by decide)
  set name := stem ++ ['.', a, b, c] with hnamedef
  have hdotmem : '.' ∉ [a, b, c] := by
    intro hm
    simp only [List.mem_cons, List.not_mem_nil, or_false] at hm
    rcases hm with h | h | h
    · exact hadot h.symm
    · exact hbdot h.symm
    · exact hcdot h.symm
  have hname_ne : name ≠ [] := by simp [hnamedef]
  have hname_nedot : name ≠ ['.'] := by
    intro hh
    have := congrArg List.length hh
    simp [hnamedef] at this
  have hname_noslash : '/' ∉ name := by
    simp only [hnamedef, List.mem_append]
    rintro (hm | hm)
    · exact hstem3 hm
    · simp only [List.mem_cons, List.not_mem_nil, or_false] at hm
      rcases hm with h | h | h | h
      · exact absurd h.symm (by decide)
      · exact hasl h.symm
      · exact hbsl h.symm
      · exact hcsl h.symm
  have hall : ∀ p ∈ ps ++ [name], p ≠ [] ∧ p ≠ ['.'] ∧ '/' ∉ p := by
    intro p hp
    rcases List.mem_append.mp hp with hp | hp
    · exact hps p hp
    · rcases List.mem_singleton.mp hp with rfl
      exact ⟨hname_ne, hname_nedot, hname_noslash⟩
  have hparts : pyParts (strOfParts root (ps ++ [name])) = ps ++ [name] :=
    pyParts_strOfParts root (ps ++ [name]) hroot hall (by simp)
  have hrootEq : pyRoot (strOfParts root (ps ++ [name])) = root :=
    pyRoot_strOfParts root (ps ++ [name]) hroot hall (by simp)
  have hpyName : pyName (strOfParts root (ps ++ [name])) = name := by
    simp [pyName, hparts, List.getLast?_concat]
  have hsuffix : py_suffix name = '.' :: [a, b, c] :=
    py_suffix_append_dot stem [a, b, c] hstem1 (by simp) hdotmem
  have hstemEq : py_stem name = stem :=
    py_stem_append_dot stem [a, b, c] hstem1 (by simp) hdotmem
  have hmap : (py_suffix name).map Char.toLower = mp4Suffix := by
    rw [hsuffix]
    simp only [List.map_cons, List.map_nil, ha, hb, hc]
    rfl
  simp only [remove_mp4_extension]
  rw [hpyName]
  rw [hmap]
  rw [if_pos rfl]
  rw [hrootEq, hparts, hstemEq, List.dropLast_concat]
  rw [if_neg (by simp [hstem1, hstem2])]

/-- C8, witness: `"1.zip.mp4"` (earlier extension `.zip` preserved)
maps to `"1.zip"`, and the non-matching `"noext"` is unchanged. -/
theorem remove_mp4_extension_spec_witness :
    remove_mp4_extension ['1', '.', 'z', 'i', 'p', '.', 'm', 'p', '4'] =
      ['1', '.', 'z', 'i', 'p'] ∧
    remove_mp4_extension ['n', 'o', 'e', 'x', 't'] = ['n', 'o', 'e', 'x', 't'] :=
  ⟨(remove_mp4_extension_spec [] [] ['1', '.', 'z', 'i', 'p'] 'm' 'p' '4'
      ['n', 'o', 'e', 'x', 't'] (Or.inl rfl) (by simp) (by decide) (by decide)
      (by decide) (by decide) (by decide) (by decide)).1,
    (remove_mp4_extension_spec [] [] ['1', '.', 'z', 'i', 'p'] 'm' 'p' '4'
      ['n', 'o', 'e', 'x', 't'] (Or.inl rfl) (by simp) (by decide) (by decide)
      (by decide) (by decide) (by decide) (by decide)).2 (by decide)⟩

/-- C9.  `reverse_byte_array` preserves length and is an involution, so
applying it to the disguised header recovers exactly the original
header bytes that the forward masking reversed. -/
theorem reverse_byte_array_involutive (b : List Nat) :
    (reverse_byte_array b).length = b.length ∧
    reverse_byte_array (reverse_byte_array b) = b := by
  constructor <;> simp [reverse_byte_array]

/-- C10.  On a path with no existing file, `reveal_file` reports failure
(the existence check fails before any handle is opened, so no exception
is raised), creates no file, and leaves the file-system state
unmodified. -/
theorem reveal_missing_file :
    reveal_file_fs none = (Except.error RevealError.FileNotFound, none) := rfl
